import Mathlib

/-!
Verification of the orbit/action enumeration engine exposed by the
libsemigroups_pybind11 Action bindings.

The bindings in the repository (`init_action`, `bind_action`) expose the
`Action` class of the external libsemigroups library: seeds and generators
are added, an incremental breadth-first closure produces a deduplicated
point store and a generator-labelled word graph, strongly connected
components of that graph are computed lazily, and "multipliers" (elements
realizing point-to-root and root-to-point paths) are derived by composing
edge labels.  The engine itself is not part of the repository sources, so
the definitions below are modelled from the specification (spec.md
sections 3 and 4) and from the binding docstrings; each such definition
carries a doc comment saying so.
-/

namespace ActionSpec

/-- Modelled from the spec: error taxonomy of the Action engine
(spec section 7): OutOfRange / NoSuchPoint for indices beyond the
currently known bounds, and the no-generators failure documented for the
multiplier functions in the binding docstrings. -/
inductive ActionErr : Type where
  | outOfRange : ActionErr
  | noGenerators : ActionErr
deriving DecidableEq

/-- Modelled from the spec: the state of an Action (spec sections 2 and 3).
`points` is the deduplicated, append-only PointStore (list position =
dense PointIndex); `gens` the ordered GeneratorSet; `edges` the labelled
edge list of the WordGraph, an edge `(i, g, j)` recording that applying
generator `g` to the point at index `i` yields the point at index `j`;
`cacheOn` the `cache_scc_multipliers` flag; `multCache` the memoized
multipliers keyed by (PointIndex, direction), direction `true` meaning
point-to-root; `sccCache` the lazily computed SCC data (component id per
node), `none` when invalidated by a graph mutation. -/
structure ActionState (Elt Pt : Type) : Type where
  points : List Pt
  gens : List Elt
  edges : List (Nat × Nat × Nat)
  cacheOn : Bool
  multCache : List ((Nat × Bool) × Elt)
  sccCache : Option (List Nat)
deriving DecidableEq

variable {Elt Pt : Type} [DecidableEq Pt] [Inhabited Pt] [Inhabited Elt]

/-- Modelled from the spec: the state of a newly default-constructed
action (binding docstring of the default constructor). -/
def initState : ActionState Elt Pt :=
  { points := [], gens := [], edges := [], cacheOn := false,
    multCache := [], sccCache := none }

/-- Modelled from the spec: `init` puts an action object back into the
same state as if it had been newly default constructed (binding
docstring of `init`). -/
def init (_s : ActionState Elt Pt) : ActionState Elt Pt := initState

/-- Modelled from the spec: `current_size` reports the number of points
found so far without enumerating further. -/
def current_size (s : ActionState Elt Pt) : Nat := s.points.length

/-- Modelled from the spec: `number_of_generators`. -/
def number_of_generators (s : ActionState Elt Pt) : Nat := s.gens.length

/-- Modelled from the spec: `empty` checks whether the action contains
any points, seeds included (binding docstring of `empty`). -/
def empty (s : ActionState Elt Pt) : Bool := s.points.isEmpty

/-- Modelled from the spec: the point stored at a given index (total
version used internally; the raising version is `atP`). -/
def pointAt (s : ActionState Elt Pt) (i : Nat) : Pt := s.points.getD i default

/-- Modelled from the spec: `position` is the constant-time
non-mutating lookup of a point among the so far discovered points,
returning an undefined sentinel (here `none`) when absent. -/
def position (s : ActionState Elt Pt) (p : Pt) : Option Nat :=
  s.points.findIdx? (fun q => decide (q = p))

/-- Modelled from the spec: `at` / `__getitem__` returns the point in a
given position, raising IndexError when `pos >= current_size()`
(binding docstring of `__getitem__`). -/
def atP (s : ActionState Elt Pt) (pos : Nat) : Except ActionErr Pt :=
  if h : pos < s.points.length then .ok (s.points.get ⟨pos, h⟩)
  else .error .outOfRange

/-- Modelled from the spec: `add_seed` registers the point in the
PointStore if absent; re-adding an already-present point is a no-op
(spec sections 4.1 and 4.2). A genuinely new node invalidates the SCC
snapshot (spec invariant 3). -/
def add_seed (s : ActionState Elt Pt) (p : Pt) : ActionState Elt Pt :=
  if p ∈ s.points then s
  else { s with points := s.points ++ [p], sccCache := none }

/-- Modelled from the spec: `add_generator` appends to the ordered
GeneratorSet; already-discovered nodes now owe an edge computation for
the new generator, which the enumerator performs lazily. -/
def add_generator (s : ActionState Elt Pt) (g : Elt) : ActionState Elt Pt :=
  { s with gens := s.gens ++ [g] }

/-- Modelled from the spec: `cache_scc_multipliers(val)` setter. -/
def cache_scc_multipliers (s : ActionState Elt Pt) (val : Bool) :
    ActionState Elt Pt :=
  { s with cacheOn := val }

/-- Modelled from the spec: the target of the WordGraph edge with a given
source node and generator label, when that edge has been computed. -/
def edgeTarget (s : ActionState Elt Pt) (i g : Nat) : Option Nat :=
  (s.edges.find? (fun e => e.1 == i && e.2.1 == g)).map (fun e => e.2.2)

/-- Modelled from the spec: whether the edge out of node `i` labelled by
generator `g` has already been computed. -/
def hasEdge (s : ActionState Elt Pt) (i g : Nat) : Bool :=
  (edgeTarget s i g).isSome

/-- Modelled from the spec: the (node, generator) pairs still owing an
edge computation, in expansion order (node index first, generator
insertion order second, spec section 4.2). -/
def missingPairs (s : ActionState Elt Pt) : List (Nat × Nat) :=
  (List.range s.points.length).flatMap (fun i =>
    (List.range s.gens.length).filterMap (fun g =>
      if hasEdge s i g then none else some (i, g)))

/-- Modelled from the spec: the enumeration is finished when the frontier
is empty, i.e. no (node, generator) pair owes an edge computation. -/
def finishedb (s : ActionState Elt Pt) : Bool := (missingPairs s).isEmpty

end ActionSpec

namespace ActionSpec

variable {Elt Pt : Type} [DecidableEq Pt] [Inhabited Pt] [Inhabited Elt]

/-- Modelled from the spec: one node-expansion step of the
OrbitEnumerator (spec section 4.2): pop the first owing (node, generator)
pair, apply the generator to the point, look up or insert the result in
the PointStore (the single deduplication point), and record the edge.
Adding a node or an edge invalidates the SCC snapshot. When the frontier
is empty the step is the identity. -/
def stepA (act : Elt → Pt → Pt) (s : ActionState Elt Pt) : ActionState Elt Pt :=
  match (missingPairs s).head? with
  | none => s
  | some (i, g) =>
    let q := act (s.gens.getD g default) (pointAt s i)
    match s.points.findIdx? (fun r => decide (r = q)) with
    | some j => { s with edges := s.edges ++ [(i, g, j)], sccCache := none }
    | none => { s with points := s.points ++ [q],
                       edges := s.edges ++ [(i, g, s.points.length)],
                       sccCache := none }

/-- Modelled from the spec: `enumerate(limit)` / `run_for`: perform at
most `fuel` node-expansion steps, stopping early (as a fixpoint) once the
orbit is closed. -/
def enumerate (act : Elt → Pt → Pt) (fuel : Nat) (s : ActionState Elt Pt) :
    ActionState Elt Pt :=
  (stepA act)^[fuel] s

/-- Modelled from the spec: a run split across several bounded
`run_for`/`enumerate` calls, one fuel amount per call. -/
def runFuels (act : Elt → Pt → Pt) (L : List Nat) (s : ActionState Elt Pt) :
    ActionState Elt Pt :=
  L.foldl (fun t k => enumerate act k t) s

/-- Modelled from the spec: the state of an action after adding the given
seeds and then the given generators, in order, to a fresh action. -/
def buildState (seeds : List Pt) (gs : List Elt) : ActionState Elt Pt :=
  gs.foldl add_generator (seeds.foldl add_seed initState)

/-- Modelled from the spec: the WordGraph successors of a node, over all
generator labels. -/
def succsOf (s : ActionState Elt Pt) (i : Nat) : List Nat :=
  s.edges.filterMap (fun e => if e.1 = i then some e.2.2 else none)

/-- Modelled from the spec: one closure step of the SccEngine's
reachability computation over the current node/edge snapshot: a node set
together with all its in-range successors. -/
def stepCl (s : ActionState Elt Pt) (A : Finset Nat) : Finset Nat :=
  A ∪ A.biUnion (fun i =>
    ((succsOf s i).filter (fun j => j < current_size s)).toFinset)

/-- Modelled from the spec: the set of nodes reachable from `i` in the
WordGraph snapshot, computed by saturating the closure step. -/
def reachSet (s : ActionState Elt Pt) (i : Nat) : Finset Nat :=
  (stepCl s)^[current_size s + 1] {i}

/-- Modelled from the spec: decidable reachability in the WordGraph
snapshot. -/
def reachb (s : ActionState Elt Pt) (i j : Nat) : Bool :=
  decide (j ∈ reachSet s i)

/-- Modelled from the spec: two nodes lie in the same strongly connected
component iff each reaches the other (spec section 3 and glossary). -/
def sccEquivb (s : ActionState Elt Pt) (i j : Nat) : Bool :=
  reachb s i j && reachb s j i

/-- The one-step edge relation of the WordGraph snapshot: there is an
edge from `i` to `j` under some generator label. -/
def edgeRel (s : ActionState Elt Pt) (i j : Nat) : Prop :=
  ∃ g, (i, g, j) ∈ s.edges

/-- Reachability in the WordGraph snapshot, as the reflexive-transitive
closure of the edge relation. -/
def Reaches (s : ActionState Elt Pt) : Nat → Nat → Prop :=
  Relation.ReflTransGen (edgeRel s)

/-- Modelled from the spec: the root of the strongly connected component
of node `i`: the earliest-discovered (lowest PointIndex) member of the
component (spec section 3). -/
def rootIdx (s : ActionState Elt Pt) (i : Nat) : Nat :=
  (((List.range (current_size s)).filter
    (fun j => sccEquivb s j i)).headD i)

/-- Modelled from the spec: the component data returned by `scc()`: the
root index of every discovered node, serving as its component id. -/
def sccIds (s : ActionState Elt Pt) : List Nat :=
  (List.range (current_size s)).map (rootIdx s)

/-- Modelled from the spec: `scc()` returns the SCC data for the current
snapshot, computing and caching it lazily. -/
def scc (s : ActionState Elt Pt) : List Nat × ActionState Elt Pt :=
  match s.sccCache with
  | some d => (d, s)
  | none => (sccIds s, { s with sccCache := some (sccIds s) })

/-- Modelled from the spec: `root_of_scc(pos)` returns the root point of
the strongly connected component of the point at index `pos`, raising
the out-of-range error when `pos` is out of range, and triggering the
lazy SCC computation. -/
def root_of_scc (s : ActionState Elt Pt) (pos : Nat) :
    Except ActionErr (Pt × ActionState Elt Pt) :=
  if pos < current_size s then
    .ok (pointAt s (rootIdx s pos), { s with sccCache := some (sccIds s) })
  else .error .outOfRange

/-- Modelled from the spec: follow a word of generator labels through the
WordGraph edges starting at a node, failing if an edge is missing. -/
def followEdges (s : ActionState Elt Pt) : Nat → List Nat → Option Nat
  | i, [] => some i
  | i, g :: w =>
    match edgeTarget s i g with
    | some j => followEdges s j w
    | none => none

/-- All words over the alphabet `{0, ..., k-1}` of length at most `L`. -/
def allWordsUpTo (k : Nat) : Nat → List (List Nat)
  | 0 => [[]]
  | L + 1 => [] :: (List.range k).flatMap (fun g =>
      (allWordsUpTo k L).map (fun w => g :: w))

/-- Modelled from the spec: a generator-labelled path through the
WordGraph from one node to another, found on the current snapshot. -/
def findPath (s : ActionState Elt Pt) (i j : Nat) : Option (List Nat) :=
  (allWordsUpTo s.gens.length (current_size s + 1)).find?
    (fun w => followEdges s i w == some j)

/-- Modelled from the spec: a multiplier is derived by composing the
generators along a path, in the action's single fixed multiplication
convention, starting from the identity (spec section 4.4). -/
def composeWord (mulE : Elt → Elt → Elt) (oneE : Elt)
    (s : ActionState Elt Pt) (w : List Nat) : Elt :=
  w.foldl (fun a g => mulE a (s.gens.getD g default)) oneE

/-- Modelled from the spec: lookup in the multiplier memo cache,
direction `true` meaning point-to-root. -/
def cacheLookup (s : ActionState Elt Pt) (i : Nat) (dir : Bool) : Option Elt :=
  (s.multCache.find? (fun c => c.1.1 == i && c.1.2 == dir)).map (fun c => c.2)

/-- Modelled from the spec: `multiplier_to_scc_root(pos)` returns an
element taking the point at index `pos` to the root of its strongly
connected component, raising if there are no generators yet added or the
index `pos` is out of range (binding docstring); it consults the memo
cache when caching is enabled, and otherwise composes the labels of a
path from `pos` to the root, triggering the lazy SCC computation. -/
def multiplier_to_scc_root (mulE : Elt → Elt → Elt) (oneE : Elt)
    (s : ActionState Elt Pt) (pos : Nat) :
    Except ActionErr (Elt × ActionState Elt Pt) :=
  if s.gens.isEmpty then .error .noGenerators
  else if pos < current_size s then
    match (if s.cacheOn then cacheLookup s pos true else none) with
    | some x => .ok (x, s)
    | none =>
      match findPath s pos (rootIdx s pos) with
      | some w =>
        let x := composeWord mulE oneE s w
        .ok (x, { s with
          sccCache := some (sccIds s),
          multCache :=
            if s.cacheOn then ((pos, true), x) :: s.multCache
            else s.multCache })
      | none => .error .outOfRange
  else .error .outOfRange

/-- Modelled from the spec: `multiplier_from_scc_root(pos)` returns an
element taking the root of the strongly connected component of the point
at index `pos` back to that point, with the same failure, caching and
lazy SCC behaviour as `multiplier_to_scc_root`. -/
def multiplier_from_scc_root (mulE : Elt → Elt → Elt) (oneE : Elt)
    (s : ActionState Elt Pt) (pos : Nat) :
    Except ActionErr (Elt × ActionState Elt Pt) :=
  if s.gens.isEmpty then .error .noGenerators
  else if pos < current_size s then
    match (if s.cacheOn then cacheLookup s pos false else none) with
    | some x => .ok (x, s)
    | none =>
      match findPath s (rootIdx s pos) pos with
      | some w =>
        let x := composeWord mulE oneE s w
        .ok (x, { s with
          sccCache := some (sccIds s),
          multCache :=
            if s.cacheOn then ((pos, false), x) :: s.multCache
            else s.multCache })
      | none => .error .outOfRange
  else .error .outOfRange

/-- Modelled from the spec: the out-degree of a node of the WordGraph:
the number of recorded edges with that source. -/
def outDegree (s : ActionState Elt Pt) (i : Nat) : Nat :=
  (s.edges.filter (fun e => e.1 == i)).length

/-- The key identifying an edge slot: source node and generator label. -/
def edgeKey (e : Nat × Nat × Nat) : Nat × Nat := (e.1, e.2.1)

/-- Well-formedness of one WordGraph edge `(i, g, j)`: source, label and
target in range, and the edge realizes the action: applying generator
`g` to the point at `i` yields the point at `j` (spec invariant 2). -/
def EdgeOk (act : Elt → Pt → Pt) (s : ActionState Elt Pt)
    (e : Nat × Nat × Nat) : Prop :=
  e.1 < current_size s ∧ e.2.1 < s.gens.length ∧ e.2.2 < current_size s ∧
    act (s.gens.getD e.2.1 default) (pointAt s e.1) = pointAt s e.2.2

/-- Well-formedness of one memoized multiplier: it is bound to the
current snapshot, realizing the point-to-root (direction `true`) or
root-to-point (direction `false`) transition it was stored for. -/
def CacheOk (act : Elt → Pt → Pt) (s : ActionState Elt Pt)
    (c : (Nat × Bool) × Elt) : Prop :=
  c.1.1 < current_size s ∧
    (if c.1.2 then act c.2 (pointAt s c.1.1) = pointAt s (rootIdx s c.1.1)
     else act c.2 (pointAt s (rootIdx s c.1.1)) = pointAt s c.1.1)

/-- The representation invariant of an Action state: the PointStore is
deduplicated, every recorded edge is well formed, at most one edge is
recorded per (source, label) slot, and every memoized multiplier is
coherent with the snapshot. -/
def Inv (act : Elt → Pt → Pt) (s : ActionState Elt Pt) : Prop :=
  s.points.Nodup ∧ (∀ e ∈ s.edges, EdgeOk act s e) ∧
    (s.edges.map edgeKey).Nodup ∧ (∀ c ∈ s.multCache, CacheOk act s c)

instance (act : Elt → Pt → Pt) (s : ActionState Elt Pt)
    (e : Nat × Nat × Nat) : Decidable (EdgeOk act s e) := by
  unfold EdgeOk; infer_instance

instance (act : Elt → Pt → Pt) (s : ActionState Elt Pt)
    (c : (Nat × Bool) × Elt) : Decidable (CacheOk act s c) := by
  unfold CacheOk; infer_instance

instance (act : Elt → Pt → Pt) (s : ActionState Elt Pt) :
    Decidable (Inv act s) := by
  unfold Inv; infer_instance

/-- Two Action states with identical PointStore, GeneratorSet and
WordGraph edge list (the enumeration-visible data). -/
def sameGraph (s t : ActionState Elt Pt) : Prop :=
  t.points = s.points ∧ t.gens = s.gens ∧ t.edges = s.edges

end ActionSpec

namespace ActionSpec

/-- A concrete point type for test instances. -/
abbrev TPt : Type := Fin 3

/-- A concrete element type for test instances: self-maps of `Fin 3`. -/
abbrev TElt : Type := Fin 3 → Fin 3

/-- Test instance of the external apply capability. -/
def tact : TElt → TPt → TPt := fun f p => f p

/-- Test instance of element multiplication, in the right-action
convention: applying a product applies the factors left to right. -/
def tmul : TElt → TElt → TElt := fun f g p => g (f p)

/-- Test instance of the identity element. -/
def tone : TElt := fun p => p

/-- A test generator swapping the points 0 and 1 of `Fin 3`. -/
def tg1 : TElt := fun p => if p = 0 then 1 else if p = 1 then 0 else p

/-- A two-point test action: seed 0, one generator swapping 0 and 1,
fully enumerated (two expansion steps close the orbit). -/
def tS : ActionState TElt TPt :=
  enumerate tact 2 (add_generator (add_seed initState (0 : TPt)) tg1)

/-- A test action holding a single seed and no generators. -/
def tSeedOnly : ActionState TElt TPt := add_seed initState (0 : TPt)

end ActionSpec

namespace ActionSpec

variable {Elt Pt : Type} [DecidableEq Pt] [Inhabited Pt] [Inhabited Elt]
variable (act : Elt → Pt → Pt)

theorem step_of_finished (s : ActionState Elt Pt)
    (h : finishedb s = true) : stepA act s = s := by
  unfold finishedb at h
  rw [List.isEmpty_iff] at h
  unfold stepA
  rw [h]
  rfl

theorem runFuels_eq_iterate (L : List Nat) (s : ActionState Elt Pt) :
    runFuels act L s = (stepA act)^[L.sum] s := by
  induction L generalizing s with
  | nil => rfl
  | cons a t ih =>
    show runFuels act t (enumerate act a s) = _
    rw [ih, List.sum_cons, Nat.add_comm, Function.iterate_add_apply]
    rfl

theorem iterate_of_finished (s : ActionState Elt Pt) (m m' : Nat)
    (h : m ≤ m') (hf : finishedb ((stepA act)^[m] s) = true) :
    (stepA act)^[m'] s = (stepA act)^[m] s := by
  obtain ⟨d, rfl⟩ := Nat.exists_eq_add_of_le h
  rw [Nat.add_comm, Function.iterate_add_apply]
  exact Function.iterate_fixed (step_of_finished act _ hf) d

/-- Claim C2: two runs from the same seeds and generators (added in the
same order), with the same deterministic apply function, assign the same
PointIndex to every point and produce the same labelled edge set, no
matter how the enumeration is split across bounded enumeration calls. -/
theorem claim_C2_determinism (seeds : List Pt) (gs : List Elt)
    (L1 L2 : List Nat)
    (h1 : finishedb (runFuels act L1 (buildState seeds gs)) = true)
    (h2 : finishedb (runFuels act L2 (buildState seeds gs)) = true) :
    (runFuels act L1 (buildState seeds gs)).points
      = (runFuels act L2 (buildState seeds gs)).points ∧
    (runFuels act L1 (buildState seeds gs)).edges
      = (runFuels act L2 (buildState seeds gs)).edges := by
  have key : runFuels act L1 (buildState seeds gs)
      = runFuels act L2 (buildState seeds gs) := by
    rw [runFuels_eq_iterate] at h1 ⊢
    rw [runFuels_eq_iterate act L2] at h2 ⊢
    rcases le_total L1.sum L2.sum with h | h
    · rw [iterate_of_finished act _ _ _ h h1]
    · rw [iterate_of_finished act _ _ _ h h2]
  exact ⟨by rw [key], by rw [key]⟩

/-- Claim C5: the SCC, root and multiplier queries operate only on the
graph snapshot at call time: whenever they return a state, that state
has the same PointStore, GeneratorSet and WordGraph edge list (hence the
same `current_size`) as the state they were called on; they never
trigger further orbit enumeration. -/
theorem claim_C5_frame (s : ActionState Elt Pt) :
    (sameGraph s (ActionSpec.scc s).2
      ∧ current_size (ActionSpec.scc s).2 = current_size s) ∧
    (∀ pos p t, root_of_scc s pos = .ok (p, t) →
      sameGraph s t ∧ current_size t = current_size s) ∧
    (∀ (mulE : Elt → Elt → Elt) (oneE : Elt) pos x t,
      multiplier_to_scc_root mulE oneE s pos = .ok (x, t) →
      sameGraph s t ∧ current_size t = current_size s) ∧
    (∀ (mulE : Elt → Elt → Elt) (oneE : Elt) pos x t,
      multiplier_from_scc_root mulE oneE s pos = .ok (x, t) →
      sameGraph s t ∧ current_size t = current_size s) := by
  refine ⟨?_, ?_, ?_, ?_⟩
  · unfold ActionSpec.scc
    rcases s.sccCache with _ | d
    · exact ⟨⟨rfl, rfl, rfl⟩, rfl⟩
    · exact ⟨⟨rfl, rfl, rfl⟩, rfl⟩
  · intro pos p t h
    unfold root_of_scc at h
    split at h
    · rw [Except.ok.injEq, Prod.mk.injEq] at h
      rw [← h.2]
      exact ⟨⟨rfl, rfl, rfl⟩, rfl⟩
    · exact absurd h (by simp)
  · intro mulE oneE pos x t h
    unfold multiplier_to_scc_root at h
    split at h
    · exact absurd h (by simp)
    split at h
    · split at h
      · rw [Except.ok.injEq, Prod.mk.injEq] at h
        rw [← h.2]
        exact ⟨⟨rfl, rfl, rfl⟩, rfl⟩
      · split at h
        · rw [Except.ok.injEq, Prod.mk.injEq] at h
          rw [← h.2]
          exact ⟨⟨rfl, rfl, rfl⟩, rfl⟩
        · exact absurd h (by simp)
    · exact absurd h (by simp)
  · intro mulE oneE pos x t h
    unfold multiplier_from_scc_root at h
    split at h
    · exact absurd h (by simp)
    split at h
    · split at h
      · rw [Except.ok.injEq, Prod.mk.injEq] at h
        rw [← h.2]
        exact ⟨⟨rfl, rfl, rfl⟩, rfl⟩
      · split at h
        · rw [Except.ok.injEq, Prod.mk.injEq] at h
          rw [← h.2]
          exact ⟨⟨rfl, rfl, rfl⟩, rfl⟩
        · exact absurd h (by simp)
    · exact absurd h (by simp)

/-- Claim C7: `at` (the `__getitem__` binding) fails exactly when the
index is at least `current_size()`, and for every smaller index it
returns the point stored at that index; being a pure query of the
snapshot it performs no mutation and no enumeration. -/
theorem claim_C7_at (s : ActionState Elt Pt) (pos : Nat) :
    ((atP s pos).isOk = true ↔ pos < current_size s) ∧
    (∀ h : pos < current_size s, atP s pos = .ok (s.points.get ⟨pos, h⟩)) := by
  unfold atP current_size
  constructor
  · constructor
    · intro h
      by_contra hlt
      rw [dif_neg hlt] at h
      simp [Except.isOk, Except.toBool] at h
    · intro h
      rw [dif_pos h]
      rfl
  · intro h
    rw [dif_pos h]

/-- Claim C8: re-adding an already-present seed leaves the whole state
unchanged: the size, every point's index, and in particular the index
associated with the re-added point, are all preserved. -/
theorem claim_C8_add_seed_idempotent (s : ActionState Elt Pt) (p : Pt)
    (hp : p ∈ s.points) :
    add_seed s p = s ∧
    current_size (add_seed s p) = current_size s ∧
    (∀ q, position (add_seed s p) q = position s q) := by
  have h : add_seed s p = s := by
    unfold add_seed
    rw [if_pos hp]
  exact ⟨h, by rw [h], fun q => by rw [h]⟩

/-- Claim C9: `empty()` holds exactly when the action holds no points at
all, seeds included (`current_size() = 0`), and adding any single seed
already makes `empty()` false, before any enumeration. -/
theorem claim_C9_empty (s : ActionState Elt Pt) :
    (empty s = true ↔ current_size s = 0) ∧
    (∀ p, empty (add_seed s p) = false) := by
  constructor
  · unfold empty current_size
    rw [List.isEmpty_iff, List.length_eq_zero]
  · intro p
    unfold empty add_seed
    split
    · next hp =>
      have hne : s.points ≠ [] := List.ne_nil_of_mem hp
      cases hpts : s.points with
      | nil => exact absurd hpts hne
      | cons a t => rfl
    · rcases s.points with _ | ⟨a, t⟩ <;> rfl

theorem subset_stepCl (s : ActionState Elt Pt) (A : Finset Nat) :
    A ⊆ stepCl s A :=
  Finset.subset_union_left

theorem subset_iterate_stepCl (s : ActionState Elt Pt) (A : Finset Nat)
    (m : Nat) : A ⊆ (stepCl s)^[m] A := by
  induction m with
  | zero => exact fun x hx => hx
  | succ m ih =>
    rw [Function.iterate_succ_apply']
    exact ih.trans (subset_stepCl s _)

theorem stepCl_subset_range (s : ActionState Elt Pt) (A : Finset Nat)
    (hA : A ⊆ Finset.range (current_size s)) :
    stepCl s A ⊆ Finset.range (current_size s) := by
  unfold stepCl
  apply Finset.union_subset hA
  intro j hj
  rw [Finset.mem_biUnion] at hj
  obtain ⟨i, _, hj⟩ := hj
  rw [List.mem_toFinset, List.mem_filter] at hj
  rw [Finset.mem_range]
  exact of_decide_eq_true hj.2

theorem iterate_stepCl_subset_range (s : ActionState Elt Pt) (i : Nat)
    (hi : i < current_size s) (m : Nat) :
    (stepCl s)^[m] {i} ⊆ Finset.range (current_size s) := by
  induction m with
  | zero =>
    intro x hx
    rw [Function.iterate_zero_apply, Finset.mem_singleton] at hx
    rw [hx, Finset.mem_range]
    exact hi
  | succ m ih =>
    rw [Function.iterate_succ_apply']
    exact stepCl_subset_range s _ ih

theorem stepCl_stable_of_stable (s : ActionState Elt Pt) (A : Finset Nat)
    (k : Nat) (h : (stepCl s)^[k + 1] A = (stepCl s)^[k] A)
    (m : Nat) (hm : k ≤ m) : (stepCl s)^[m] A = (stepCl s)^[k] A := by
  obtain ⟨d, rfl⟩ := Nat.exists_eq_add_of_le hm
  rw [Nat.add_comm, Function.iterate_add_apply]
  apply Function.iterate_fixed
  have e3 := Function.iterate_succ_apply' (stepCl s) k A
  rw [← e3]
  exact h

theorem exists_stable_stepCl (s : ActionState Elt Pt) (i : Nat)
    (hi : i < current_size s) :
    ∃ k, k ≤ current_size s ∧
      (stepCl s)^[k + 1] {i} = (stepCl s)^[k] {i} := by
  by_contra hc
  push_neg at hc
  have grow : ∀ k, k ≤ current_size s →
      k + 1 ≤ ((stepCl s)^[k] ({i} : Finset Nat)).card := by
    intro k
    induction k with
    | zero =>
      intro _
      rw [Function.iterate_zero_apply, Finset.card_singleton]
    | succ k ih =>
      intro hk
      have hk' : k ≤ current_size s := Nat.le_of_succ_le hk
      have hlt : ((stepCl s)^[k] ({i} : Finset Nat)).card
          < ((stepCl s)^[k + 1] ({i} : Finset Nat)).card := by
        apply Finset.card_lt_card
        rw [Finset.ssubset_iff_subset_ne]
        constructor
        · rw [Function.iterate_succ_apply']
          exact subset_stepCl s _
        · exact (hc k hk').symm
      have := ih hk'
      omega
  have h2 := grow (current_size s) le_rfl
  have h3 := Finset.card_le_card
    (iterate_stepCl_subset_range s i hi (current_size s))
  rw [Finset.card_range] at h3
  omega

theorem stepCl_reachSet (s : ActionState Elt Pt) (i : Nat)
    (hi : i < current_size s) :
    stepCl s (reachSet s i) = reachSet s i := by
  obtain ⟨k, hk, hfix⟩ := exists_stable_stepCl s i hi
  unfold reachSet
  have e1 : (stepCl s)^[current_size s + 1] ({i} : Finset Nat)
      = (stepCl s)^[k] {i} :=
    stepCl_stable_of_stable s _ k hfix _ (hk.trans (Nat.le_succ _))
  have e2 : (stepCl s)^[(current_size s + 1) + 1] ({i} : Finset Nat)
      = (stepCl s)^[k] {i} :=
    stepCl_stable_of_stable s _ k hfix _
      (hk.trans ((Nat.le_succ _).trans (Nat.le_succ _)))
  have e3 := Function.iterate_succ_apply' (stepCl s)
    (current_size s + 1) ({i} : Finset Nat)
  rw [← e3, e2, e1]

theorem mem_succsOf (s : ActionState Elt Pt) (b c : Nat) :
    c ∈ succsOf s b ↔ ∃ g, (b, g, c) ∈ s.edges := by
  unfold succsOf
  rw [List.mem_filterMap]
  constructor
  · rintro ⟨e, he, hc⟩
    by_cases h1 : e.1 = b
    · rw [if_pos h1, Option.some.injEq] at hc
      refine ⟨e.2.1, ?_⟩
      have he2 : (e.1, e.2.1, e.2.2) = e := rfl
      rw [← h1, ← hc, he2]
      exact he
    · rw [if_neg h1] at hc
      cases hc
  · rintro ⟨g, hg⟩
    exact ⟨(b, g, c), hg, by rw [if_pos rfl]⟩

theorem mem_stepCl_of_edge (s : ActionState Elt Pt) (A : Finset Nat)
    (b c : Nat) (hb : b ∈ A) (hc : c ∈ succsOf s b)
    (hlt : c < current_size s) : c ∈ stepCl s A := by
  unfold stepCl
  apply Finset.mem_union_right
  rw [Finset.mem_biUnion]
  refine ⟨b, hb, ?_⟩
  rw [List.mem_toFinset, List.mem_filter]
  exact ⟨hc, decide_eq_true hlt⟩

theorem mem_reachSet_self (s : ActionState Elt Pt) (i : Nat) :
    i ∈ reachSet s i :=
  subset_iterate_stepCl s {i} _ (Finset.mem_singleton_self i)

theorem mem_reachSet_of_reaches (act : Elt → Pt → Pt)
    (s : ActionState Elt Pt) (i j : Nat)
    (hE : ∀ e ∈ s.edges, EdgeOk act s e) (hi : i < current_size s)
    (hr : Reaches s i j) : j ∈ reachSet s i := by
  induction hr with
  | refl => exact mem_reachSet_self s i
  | tail hab hbc ih =>
    obtain ⟨g, hg⟩ := hbc
    have hlt := (hE _ hg).2.2.1
    rw [← stepCl_reachSet s i hi]
    exact mem_stepCl_of_edge s _ _ _ ih ((mem_succsOf s _ _).mpr ⟨g, hg⟩) hlt

theorem edgeTarget_eq_of_mem (s : ActionState Elt Pt)
    (hk : (s.edges.map edgeKey).Nodup) {b g j : Nat}
    (h : (b, g, j) ∈ s.edges) : edgeTarget s b g = some j := by
  unfold edgeTarget
  have hsome : (s.edges.find? (fun e => e.1 == b && e.2.1 == g)).isSome := by
    rw [List.find?_isSome]
    exact ⟨(b, g, j), h, by rw [Bool.and_eq_true, beq_iff_eq, beq_iff_eq]
                            exact ⟨rfl, rfl⟩⟩
  obtain ⟨e, he⟩ := Option.isSome_iff_exists.mp hsome
  have hmem := List.mem_of_find?_eq_some he
  have hpred := List.find?_some he
  rw [Bool.and_eq_true, beq_iff_eq, beq_iff_eq] at hpred
  have hkey : edgeKey e = edgeKey (b, g, j) := by
    unfold edgeKey
    rw [hpred.1, hpred.2]
  have heq : e = (b, g, j) := List.inj_on_of_nodup_map hk hmem h hkey
  rw [he, heq]
  rfl

theorem edgeTarget_mem (s : ActionState Elt Pt) {b g j : Nat}
    (h : edgeTarget s b g = some j) : (b, g, j) ∈ s.edges := by
  unfold edgeTarget at h
  rcases hf : s.edges.find? (fun e => e.1 == b && e.2.1 == g) with _ | e
  · rw [hf] at h
    cases h
  · rw [hf] at h
    have h2 : some e.2.2 = some j := h
    rw [Option.some.injEq] at h2
    replace h := h2
    have hmem := List.mem_of_find?_eq_some hf
    have hpred := List.find?_some hf
    rw [Bool.and_eq_true, beq_iff_eq, beq_iff_eq] at hpred
    have he2 : (e.1, e.2.1, e.2.2) = e := rfl
    rw [← hpred.1, ← hpred.2, ← h, he2]
    exact hmem

theorem followEdges_append (s : ActionState Elt Pt) (u v : List Nat)
    (i : Nat) :
    followEdges s i (u ++ v)
      = (followEdges s i u).bind (fun b => followEdges s b v) := by
  induction u generalizing i with
  | nil => rfl
  | cons g u ih =>
    show followEdges s i (g :: (u ++ v)) = _
    simp only [followEdges]
    rcases he : edgeTarget s i g with _ | j
    · rfl
    · exact ih j

theorem exists_word_of_mem_iterate (s : ActionState Elt Pt)
    (hk : (s.edges.map edgeKey).Nodup) (i : Nat) :
    ∀ m j, j ∈ (stepCl s)^[m] ({i} : Finset Nat) →
      ∃ w, w.length ≤ m ∧ followEdges s i w = some j := by
  intro m
  induction m with
  | zero =>
    intro j hj
    rw [Function.iterate_zero_apply, Finset.mem_singleton] at hj
    refine ⟨[], Nat.le_refl 0, ?_⟩
    rw [hj]
    rfl
  | succ m ih =>
    intro j hj
    rw [Function.iterate_succ_apply'] at hj
    unfold stepCl at hj
    rw [Finset.mem_union] at hj
    rcases hj with hj | hj
    · obtain ⟨w, hw1, hw2⟩ := ih j hj
      exact ⟨w, hw1.trans (Nat.le_succ m), hw2⟩
    · rw [Finset.mem_biUnion] at hj
      obtain ⟨b, hb, hj⟩ := hj
      rw [List.mem_toFinset, List.mem_filter] at hj
      obtain ⟨g, hg⟩ := (mem_succsOf s b j).mp hj.1
      obtain ⟨w, hw1, hw2⟩ := ih b hb
      refine ⟨w ++ [g], ?_, ?_⟩
      · rw [List.length_append]
        exact Nat.add_le_add hw1 (Nat.le_refl 1)
      · rw [followEdges_append, hw2, Option.some_bind]
        show (match edgeTarget s b g with
          | some j => followEdges s j []
          | none => none) = some j
        rw [edgeTarget_eq_of_mem s hk hg]
        rfl

theorem reaches_of_followEdges (s : ActionState Elt Pt) (w : List Nat) :
    ∀ i j, followEdges s i w = some j → Reaches s i j := by
  induction w with
  | nil =>
    intro i j h
    rw [show followEdges s i [] = some i from rfl, Option.some.injEq] at h
    rw [← h]
    exact Relation.ReflTransGen.refl
  | cons g w ih =>
    intro i j h
    unfold followEdges at h
    rcases he : edgeTarget s i g with _ | b
    · rw [he] at h
      exact Option.noConfusion h
    · rw [he] at h
      have h1 : edgeRel s i b := ⟨g, edgeTarget_mem s he⟩
      exact (Relation.ReflTransGen.single h1).trans (ih b j h)

theorem reachb_iff_reaches (act : Elt → Pt → Pt) (s : ActionState Elt Pt)
    (hInv : Inv act s) (i j : Nat) (hi : i < current_size s) :
    reachb s i j = true ↔ Reaches s i j := by
  constructor
  · intro h
    rw [reachb, decide_eq_true_iff] at h
    obtain ⟨w, _, hw⟩ := exists_word_of_mem_iterate s hInv.2.2.1 i _ j h
    exact reaches_of_followEdges s w i j hw
  · intro h
    rw [reachb, decide_eq_true_iff]
    exact mem_reachSet_of_reaches act s i j hInv.2.1 hi h

theorem reachb_lt (s : ActionState Elt Pt) (i j : Nat)
    (hi : i < current_size s) (h : reachb s i j = true) :
    j < current_size s := by
  rw [reachb, decide_eq_true_iff] at h
  have := iterate_stepCl_subset_range s i hi (current_size s + 1) h
  rwa [Finset.mem_range] at this

theorem reachb_self (s : ActionState Elt Pt) (i : Nat) :
    reachb s i i = true := by
  rw [reachb, decide_eq_true_iff]
  exact mem_reachSet_self s i

theorem sccEquivb_self (s : ActionState Elt Pt) (i : Nat) :
    sccEquivb s i i = true := by
  unfold sccEquivb
  rw [reachb_self, Bool.and_self]

theorem sccEquivb_symm (s : ActionState Elt Pt) (i j : Nat) :
    sccEquivb s i j = sccEquivb s j i := by
  unfold sccEquivb
  rw [Bool.and_comm]

theorem sccEquivb_trans (act : Elt → Pt → Pt) (s : ActionState Elt Pt)
    (hInv : Inv act s) (i j k : Nat) (hi : i < current_size s)
    (h1 : sccEquivb s i j = true) (h2 : sccEquivb s j k = true) :
    sccEquivb s i k = true := by
  unfold sccEquivb at h1 h2 ⊢
  rw [Bool.and_eq_true] at h1 h2 ⊢
  have hj : j < current_size s := reachb_lt s i j hi h1.1
  have hk : k < current_size s := reachb_lt s j k hj h2.1
  constructor
  · rw [reachb_iff_reaches act s hInv i k hi]
    exact ((reachb_iff_reaches act s hInv i j hi).mp h1.1).trans
      ((reachb_iff_reaches act s hInv j k hj).mp h2.1)
  · rw [reachb_iff_reaches act s hInv k i hk]
    exact ((reachb_iff_reaches act s hInv k j hk).mp h2.2).trans
      ((reachb_iff_reaches act s hInv j i hj).mp h1.2)

theorem sccEquivb_iff_reaches (act : Elt → Pt → Pt) (s : ActionState Elt Pt)
    (hInv : Inv act s) (a b : Nat) (ha : a < current_size s)
    (hb : b < current_size s) :
    sccEquivb s a b = true ↔ (Reaches s a b ∧ Reaches s b a) := by
  unfold sccEquivb
  rw [Bool.and_eq_true, reachb_iff_reaches act s hInv a b ha,
    reachb_iff_reaches act s hInv b a hb]

theorem rootIdx_spec (s : ActionState Elt Pt) (i : Nat)
    (hi : i < current_size s) :
    sccEquivb s (rootIdx s i) i = true ∧ rootIdx s i < current_size s ∧
      (∀ j, sccEquivb s j i = true → j < current_size s →
        rootIdx s i ≤ j) := by
  have hmem : i ∈ (List.range (current_size s)).filter
      (fun j => sccEquivb s j i) := by
    rw [List.mem_filter, List.mem_range]
    exact ⟨hi, sccEquivb_self s i⟩
  have hpw : ((List.range (current_size s)).filter
      (fun j => sccEquivb s j i)).Pairwise (· < ·) :=
    (List.pairwise_lt_range _).sublist (List.filter_sublist _)
  rcases hcons : (List.range (current_size s)).filter
      (fun j => sccEquivb s j i) with _ | ⟨a, t⟩
  · rw [hcons] at hmem
    cases hmem
  · rw [hcons] at hpw
    have hroot : rootIdx s i = a := by
      unfold rootIdx
      rw [hcons]
      rfl
    have ha : a ∈ (List.range (current_size s)).filter
        (fun j => sccEquivb s j i) := by
      rw [hcons]
      exact List.mem_cons_self a t
    rw [List.mem_filter, List.mem_range] at ha
    refine ⟨by rw [hroot]; exact ha.2, by rw [hroot]; exact ha.1, ?_⟩
    intro j hj hjn
    have hjmem : j ∈ (List.range (current_size s)).filter
        (fun j => sccEquivb s j i) := by
      rw [List.mem_filter, List.mem_range]
      exact ⟨hjn, hj⟩
    rw [hcons] at hjmem
    rw [hroot]
    rcases List.mem_cons.mp hjmem with h | h
    · rw [h]
    · exact Nat.le_of_lt (List.rel_of_pairwise_cons hpw h)

/-- Claim C4: for discovered points `x` and `y`, `root_of_scc(x)` and
`root_of_scc(y)` coincide exactly when `x` and `y` lie in the same
strongly connected component of the WordGraph (mutual reachability), and
the common root is the earliest-discovered (lowest PointIndex) member of
that component. -/
theorem claim_C4_root_well_defined (act : Elt → Pt → Pt)
    (s : ActionState Elt Pt) (hInv : Inv act s) (x y : Nat)
    (hx : x < current_size s) (hy : y < current_size s) :
    (rootIdx s x = rootIdx s y ↔ (Reaches s x y ∧ Reaches s y x)) ∧
    (Reaches s x (rootIdx s x) ∧ Reaches s (rootIdx s x) x) ∧
    (∀ j, Reaches s x j → Reaches s j x → rootIdx s x ≤ j) := by
  obtain ⟨hex, hxlt, hxmin⟩ := rootIdx_spec s x hx
  obtain ⟨hey, hylt, hymin⟩ := rootIdx_spec s y hy
  have hmem : Reaches s x (rootIdx s x) ∧ Reaches s (rootIdx s x) x := by
    have := (sccEquivb_iff_reaches act s hInv (rootIdx s x) x hxlt hx).mp hex
    exact ⟨this.2, this.1⟩
  have hminR : ∀ j, Reaches s x j → Reaches s j x → rootIdx s x ≤ j := by
    intro j h1 h2
    have hj : j < current_size s :=
      reachb_lt s x j hx ((reachb_iff_reaches act s hInv x j hx).mpr h1)
    exact hxmin j ((sccEquivb_iff_reaches act s hInv j x hj hx).mpr
      ⟨h2, h1⟩) hj
  refine ⟨⟨?_, ?_⟩, hmem, hminR⟩
  · intro heq
    have h1 : sccEquivb s x (rootIdx s x) = true := by
      rw [sccEquivb_symm]
      exact hex
    have h2 : sccEquivb s (rootIdx s y) y = true := hey
    rw [heq] at h1
    have h3 : sccEquivb s x y = true :=
      sccEquivb_trans act s hInv x (rootIdx s y) y hx h1 h2
    exact (sccEquivb_iff_reaches act s hInv x y hx hy).mp h3
  · intro hxy
    have hxyb : sccEquivb s x y = true :=
      (sccEquivb_iff_reaches act s hInv x y hx hy).mpr hxy
    have hyxb : sccEquivb s y x = true := by
      rw [sccEquivb_symm]
      exact hxyb
    apply Nat.le_antisymm
    · exact hxmin (rootIdx s y)
        (sccEquivb_trans act s hInv (rootIdx s y) y x hylt hey hyxb) hylt
    · exact hymin (rootIdx s x)
        (sccEquivb_trans act s hInv (rootIdx s x) x y hxlt hex hxyb) hxlt

theorem mem_allWordsUpTo (k : Nat) :
    ∀ (L : Nat) (w : List Nat), w.length ≤ L → (∀ g ∈ w, g < k) →
      w ∈ allWordsUpTo k L := by
  intro L
  induction L with
  | zero =>
    intro w hw _
    rw [Nat.le_zero, List.length_eq_zero] at hw
    rw [hw]
    exact List.mem_singleton_self []
  | succ L ih =>
    intro w hw hg
    rcases w with _ | ⟨g, w⟩
    · exact List.mem_cons_self _ _
    · apply List.mem_cons_of_mem
      rw [List.mem_flatMap]
      refine ⟨g, ?_, ?_⟩
      · rw [List.mem_range]
        exact hg g (List.mem_cons_self _ _)
      · rw [List.mem_map]
        refine ⟨w, ih w ?_ ?_, rfl⟩
        · rw [List.length_cons] at hw
          exact Nat.le_of_succ_le_succ hw
        · intro a ha
          exact hg a (List.mem_cons_of_mem _ ha)

theorem findPath_eq_some (s : ActionState Elt Pt) {i j : Nat}
    {w : List Nat} (h : findPath s i j = some w) :
    followEdges s i w = some j := by
  have hp := List.find?_some h
  rwa [beq_iff_eq] at hp

theorem followEdges_labels_lt (act : Elt → Pt → Pt)
    (s : ActionState Elt Pt) (hE : ∀ e ∈ s.edges, EdgeOk act s e) :
    ∀ (w : List Nat) (i j : Nat), followEdges s i w = some j →
      ∀ g ∈ w, g < s.gens.length := by
  intro w
  induction w with
  | nil =>
    intro i j _ g hg
    cases hg
  | cons a w ih =>
    intro i j h g hg
    unfold followEdges at h
    rcases he : edgeTarget s i a with _ | b
    · rw [he] at h
      exact Option.noConfusion h
    · rw [he] at h
      rcases List.mem_cons.mp hg with h1 | h1
      · rw [h1]
        exact (hE _ (edgeTarget_mem s he)).2.1
      · exact ih b j h g h1

theorem findPath_isSome (act : Elt → Pt → Pt) (s : ActionState Elt Pt)
    (hInv : Inv act s) (i j : Nat) (hi : i < current_size s)
    (hr : reachb s i j = true) : (findPath s i j).isSome = true := by
  rw [reachb, decide_eq_true_iff] at hr
  obtain ⟨w, hlen, hfol⟩ := exists_word_of_mem_iterate s hInv.2.2.1 i _ j hr
  rw [findPath, List.find?_isSome]
  refine ⟨w, ?_, ?_⟩
  · exact mem_allWordsUpTo s.gens.length (current_size s + 1) w hlen
      (followEdges_labels_lt act s hInv.2.1 w i j hfol)
  · rw [beq_iff_eq]
    exact hfol

theorem foldl_mul_apply (act : Elt → Pt → Pt) (mulE : Elt → Elt → Elt)
    (s : ActionState Elt Pt)
    (hcomp : ∀ a b p, act (mulE a b) p = act b (act a p))
    (hE : ∀ e ∈ s.edges, EdgeOk act s e) :
    ∀ (w : List Nat) (i j : Nat) (acc : Elt) (p : Pt),
      followEdges s i w = some j → act acc p = pointAt s i →
      act (w.foldl (fun a g => mulE a (s.gens.getD g default)) acc) p
        = pointAt s j := by
  intro w
  induction w with
  | nil =>
    intro i j acc p h hacc
    have hij : i = j := by
      have h2 : some i = some j := h
      rwa [Option.some.injEq] at h2
    rw [List.foldl_nil, hacc, hij]
  | cons g w ih =>
    intro i j acc p h hacc
    unfold followEdges at h
    rcases he : edgeTarget s i g with _ | b
    · rw [he] at h
      exact Option.noConfusion h
    · rw [he] at h
      rw [List.foldl_cons]
      apply ih b j _ p h
      rw [hcomp, hacc]
      exact (hE _ (edgeTarget_mem s he)).2.2.2

theorem composeWord_apply (act : Elt → Pt → Pt) (mulE : Elt → Elt → Elt)
    (oneE : Elt) (s : ActionState Elt Pt)
    (hcomp : ∀ a b p, act (mulE a b) p = act b (act a p))
    (hone : ∀ p, act oneE p = p)
    (hE : ∀ e ∈ s.edges, EdgeOk act s e) {i j : Nat} {w : List Nat}
    (h : followEdges s i w = some j) :
    act (composeWord mulE oneE s w) (pointAt s i) = pointAt s j := by
  unfold composeWord
  exact foldl_mul_apply act mulE s hcomp hE w i j oneE (pointAt s i) h
    (hone _)

theorem cacheLookup_ok (act : Elt → Pt → Pt) (s : ActionState Elt Pt)
    (hInv : Inv act s) {pos : Nat} {dir : Bool} {x : Elt}
    (h : cacheLookup s pos dir = some x) :
    (if dir then act x (pointAt s pos) = pointAt s (rootIdx s pos)
     else act x (pointAt s (rootIdx s pos)) = pointAt s pos) := by
  unfold cacheLookup at h
  rcases hf : s.multCache.find? (fun c => c.1.1 == pos && c.1.2 == dir)
      with _ | c
  · rw [hf] at h
    exact Option.noConfusion h
  · rw [hf] at h
    have h2 : some c.2 = some x := h
    rw [Option.some.injEq] at h2
    have hmem := List.mem_of_find?_eq_some hf
    have hpred := List.find?_some hf
    rw [Bool.and_eq_true, beq_iff_eq, beq_iff_eq] at hpred
    have hco := hInv.2.2.2 c hmem
    unfold CacheOk at hco
    rw [hpred.1, hpred.2, h2] at hco
    exact hco.2

theorem gens_isEmpty_false (s : ActionState Elt Pt) (hg : s.gens ≠ []) :
    s.gens.isEmpty = false := by
  cases hh : s.gens.isEmpty with
  | false => rfl
  | true => exact absurd (List.isEmpty_iff.mp hh) hg

theorem reachb_pos_root (s : ActionState Elt Pt) (pos : Nat)
    (hpos : pos < current_size s) :
    reachb s pos (rootIdx s pos) = true := by
  have h := (rootIdx_spec s pos hpos).1
  unfold sccEquivb at h
  rw [Bool.and_eq_true] at h
  exact h.2

theorem reachb_root_pos (s : ActionState Elt Pt) (pos : Nat)
    (hpos : pos < current_size s) :
    reachb s (rootIdx s pos) pos = true := by
  have h := (rootIdx_spec s pos hpos).1
  unfold sccEquivb at h
  rw [Bool.and_eq_true] at h
  exact h.1

theorem multiplier_to_spec (act : Elt → Pt → Pt) (mulE : Elt → Elt → Elt)
    (oneE : Elt) (s : ActionState Elt Pt) (hInv : Inv act s)
    (hcomp : ∀ a b p, act (mulE a b) p = act b (act a p))
    (hone : ∀ p, act oneE p = p) (pos : Nat)
    (hpos : pos < current_size s) (hg : s.gens ≠ []) :
    ∃ x t, multiplier_to_scc_root mulE oneE s pos = .ok (x, t) ∧
      act x (pointAt s pos) = pointAt s (rootIdx s pos) := by
  unfold multiplier_to_scc_root
  rw [if_neg (by rw [gens_isEmpty_false s hg]; exact Bool.false_ne_true)]
  rw [if_pos hpos]
  rcases hc : (if s.cacheOn then cacheLookup s pos true else none)
      with _ | x
  · have hsome := findPath_isSome act s hInv pos (rootIdx s pos) hpos
      (reachb_pos_root s pos hpos)
    obtain ⟨w, hw⟩ := Option.isSome_iff_exists.mp hsome
    rw [hw]
    refine ⟨composeWord mulE oneE s w, _, rfl, ?_⟩
    exact composeWord_apply act mulE oneE s hcomp hone hInv.2.1
      (findPath_eq_some s hw)
  · refine ⟨x, s, rfl, ?_⟩
    have hx : cacheLookup s pos true = some x := by
      cases hco : s.cacheOn with
      | false =>
        rw [hco] at hc
        exact Option.noConfusion hc
      | true =>
        rw [hco] at hc
        exact hc
    have := cacheLookup_ok act s hInv hx
    rwa [if_pos rfl] at this

theorem multiplier_from_spec (act : Elt → Pt → Pt)
    (mulE : Elt → Elt → Elt) (oneE : Elt) (s : ActionState Elt Pt)
    (hInv : Inv act s)
    (hcomp : ∀ a b p, act (mulE a b) p = act b (act a p))
    (hone : ∀ p, act oneE p = p) (pos : Nat)
    (hpos : pos < current_size s) (hg : s.gens ≠ []) :
    ∃ x t, multiplier_from_scc_root mulE oneE s pos = .ok (x, t) ∧
      act x (pointAt s (rootIdx s pos)) = pointAt s pos := by
  unfold multiplier_from_scc_root
  rw [if_neg (by rw [gens_isEmpty_false s hg]; exact Bool.false_ne_true)]
  rw [if_pos hpos]
  rcases hc : (if s.cacheOn then cacheLookup s pos false else none)
      with _ | x
  · have hrootlt : rootIdx s pos < current_size s :=
      (rootIdx_spec s pos hpos).2.1
    have hsome := findPath_isSome act s hInv (rootIdx s pos) pos hrootlt
      (reachb_root_pos s pos hpos)
    obtain ⟨w, hw⟩ := Option.isSome_iff_exists.mp hsome
    rw [hw]
    refine ⟨composeWord mulE oneE s w, _, rfl, ?_⟩
    exact composeWord_apply act mulE oneE s hcomp hone hInv.2.1
      (findPath_eq_some s hw)
  · refine ⟨x, s, rfl, ?_⟩
    have hx : cacheLookup s pos false = some x := by
      cases hco : s.cacheOn with
      | false =>
        rw [hco] at hc
        exact Option.noConfusion hc
      | true =>
        rw [hco] at hc
        exact hc
    have := cacheLookup_ok act s hInv hx
    rwa [if_neg Bool.false_ne_true] at this

/-- Claim C1: for a discovered index `pos` of an action with at least one
generator (on a well-formed state, with the element operations obeying
the action's single fixed composition convention), the element returned
by `multiplier_to_scc_root(pos)` maps the point at `pos` to the point at
the root of its strongly connected component, and the element returned
by `multiplier_from_scc_root(pos)` maps that root point back to the
point at `pos`. -/
theorem claim_C1_multiplier_correct (act : Elt → Pt → Pt)
    (mulE : Elt → Elt → Elt) (oneE : Elt) (s : ActionState Elt Pt)
    (hInv : Inv act s)
    (hcomp : ∀ a b p, act (mulE a b) p = act b (act a p))
    (hone : ∀ p, act oneE p = p) (pos : Nat)
    (hpos : pos < current_size s) (hg : s.gens ≠ []) :
    (∃ x t, multiplier_to_scc_root mulE oneE s pos = .ok (x, t) ∧
      act x (pointAt s pos) = pointAt s (rootIdx s pos)) ∧
    (∃ x t, multiplier_from_scc_root mulE oneE s pos = .ok (x, t) ∧
      act x (pointAt s (rootIdx s pos)) = pointAt s pos) :=
  ⟨multiplier_to_spec act mulE oneE s hInv hcomp hone pos hpos hg,
   multiplier_from_spec act mulE oneE s hInv hcomp hone pos hpos hg⟩

theorem multiplier_to_isOk_iff (act : Elt → Pt → Pt)
    (mulE : Elt → Elt → Elt) (oneE : Elt) (s : ActionState Elt Pt)
    (hInv : Inv act s) (pos : Nat) :
    (multiplier_to_scc_root mulE oneE s pos).isOk = true ↔
      (s.gens ≠ [] ∧ pos < current_size s) := by
  constructor
  · intro h
    unfold multiplier_to_scc_root at h
    by_cases hg : s.gens.isEmpty
    · rw [if_pos hg] at h
      exact absurd h (by simp [Except.isOk, Except.toBool])
    · rw [if_neg hg] at h
      have hg' : s.gens ≠ [] := by
        intro hnil
        exact hg (by rw [hnil]; rfl)
      by_cases hpos : pos < current_size s
      · exact ⟨hg', hpos⟩
      · rw [if_neg hpos] at h
        exact absurd h (by simp [Except.isOk, Except.toBool])
  · rintro ⟨hg, hpos⟩
    unfold multiplier_to_scc_root
    rw [if_neg (by rw [gens_isEmpty_false s hg]; exact Bool.false_ne_true)]
    rw [if_pos hpos]
    rcases hc : (if s.cacheOn then cacheLookup s pos true else none)
        with _ | x
    · have hsome := findPath_isSome act s hInv pos (rootIdx s pos) hpos
        (reachb_pos_root s pos hpos)
      obtain ⟨w, hw⟩ := Option.isSome_iff_exists.mp hsome
      rw [hw]
      rfl
    · rfl

theorem multiplier_from_isOk_iff (act : Elt → Pt → Pt)
    (mulE : Elt → Elt → Elt) (oneE : Elt) (s : ActionState Elt Pt)
    (hInv : Inv act s) (pos : Nat) :
    (multiplier_from_scc_root mulE oneE s pos).isOk = true ↔
      (s.gens ≠ [] ∧ pos < current_size s) := by
  constructor
  · intro h
    unfold multiplier_from_scc_root at h
    by_cases hg : s.gens.isEmpty
    · rw [if_pos hg] at h
      exact absurd h (by simp [Except.isOk, Except.toBool])
    · rw [if_neg hg] at h
      have hg' : s.gens ≠ [] := by
        intro hnil
        exact hg (by rw [hnil]; rfl)
      by_cases hpos : pos < current_size s
      · exact ⟨hg', hpos⟩
      · rw [if_neg hpos] at h
        exact absurd h (by simp [Except.isOk, Except.toBool])
  · rintro ⟨hg, hpos⟩
    unfold multiplier_from_scc_root
    rw [if_neg (by rw [gens_isEmpty_false s hg]; exact Bool.false_ne_true)]
    rw [if_pos hpos]
    rcases hc : (if s.cacheOn then cacheLookup s pos false else none)
        with _ | x
    · have hrootlt : rootIdx s pos < current_size s :=
        (rootIdx_spec s pos hpos).2.1
      have hsome := findPath_isSome act s hInv (rootIdx s pos) pos hrootlt
        (reachb_root_pos s pos hpos)
      obtain ⟨w, hw⟩ := Option.isSome_iff_exists.mp hsome
      rw [hw]
      rfl
    · rfl

/-- Claim C6 (amended): on a well-formed state,
`multiplier_to_scc_root(pos)` and `multiplier_from_scc_root(pos)` fail
exactly when the index `pos` is out of range or no generator has been
added yet; for every in-range `pos` of an action with at least one
generator they succeed and return an element, triggering the lazy SCC
computation rather than failing. -/
theorem claim_C6_multiplier_errors (act : Elt → Pt → Pt)
    (mulE : Elt → Elt → Elt) (oneE : Elt) (s : ActionState Elt Pt)
    (hInv : Inv act s) (pos : Nat) :
    ((multiplier_to_scc_root mulE oneE s pos).isOk = true ↔
      (s.gens ≠ [] ∧ pos < current_size s)) ∧
    ((multiplier_from_scc_root mulE oneE s pos).isOk = true ↔
      (s.gens ≠ [] ∧ pos < current_size s)) :=
  ⟨multiplier_to_isOk_iff act mulE oneE s hInv pos,
   multiplier_from_isOk_iff act mulE oneE s hInv pos⟩

theorem mem_missingPairs (s : ActionState Elt Pt) (i g : Nat) :
    (i, g) ∈ missingPairs s ↔
      i < current_size s ∧ g < s.gens.length ∧ hasEdge s i g = false := by
  unfold missingPairs
  rw [List.mem_flatMap]
  constructor
  · rintro ⟨a, ha, hmem⟩
    rw [List.mem_range] at ha
    rw [List.mem_filterMap] at hmem
    obtain ⟨b, hb, hbeq⟩ := hmem
    rw [List.mem_range] at hb
    cases hhe : hasEdge s a b with
    | true =>
      rw [hhe, if_pos rfl] at hbeq
      exact Option.noConfusion hbeq
    | false =>
      rw [hhe, if_neg Bool.false_ne_true, Option.some.injEq,
        Prod.mk.injEq] at hbeq
      obtain ⟨h1, h2⟩ := hbeq
      subst h1
      subst h2
      exact ⟨ha, hb, hhe⟩
  · rintro ⟨hi, hg, hhe⟩
    refine ⟨i, ?_, ?_⟩
    · rw [List.mem_range]
      exact hi
    · rw [List.mem_filterMap]
      refine ⟨g, ?_, ?_⟩
      · rw [List.mem_range]
        exact hg
      · rw [hhe, if_neg Bool.false_ne_true]

theorem finished_hasEdge (s : ActionState Elt Pt)
    (hfin : finishedb s = true) (i g : Nat) (hi : i < current_size s)
    (hg : g < s.gens.length) : hasEdge s i g = true := by
  cases hhe : hasEdge s i g with
  | true => rfl
  | false =>
    exfalso
    unfold finishedb at hfin
    rw [List.isEmpty_iff] at hfin
    have hmem : (i, g) ∈ missingPairs s :=
      (mem_missingPairs s i g).mpr ⟨hi, hg, hhe⟩
    rw [hfin] at hmem
    cases hmem

/-- Claim C3: once the enumeration is finished, the WordGraph is total:
for every discovered index `i` and generator label `g` the target
`target(i, g)` is defined and is itself a discovered index, and every
discovered node's out-degree equals the number of generators. -/
theorem claim_C3_closure (act : Elt → Pt → Pt) (s : ActionState Elt Pt)
    (hInv : Inv act s) (hfin : finishedb s = true) :
    (∀ i, i < current_size s → ∀ g, g < s.gens.length →
      ∃ j, j < current_size s ∧ edgeTarget s i g = some j) ∧
    (∀ i, i < current_size s →
      outDegree s i = number_of_generators s) := by
  have hedge : ∀ i, i < current_size s → ∀ g, g < s.gens.length →
      ∃ j, j < current_size s ∧ edgeTarget s i g = some j := by
    intro i hi g hg
    have hhe := finished_hasEdge s hfin i g hi hg
    unfold hasEdge at hhe
    obtain ⟨j, hj⟩ := Option.isSome_iff_exists.mp hhe
    exact ⟨j, (hInv.2.1 _ (edgeTarget_mem s hj)).2.2.1, hj⟩
  refine ⟨hedge, ?_⟩
  intro i hi
  have hfil : ∀ e ∈ s.edges.filter (fun e => e.1 == i), e.1 = i := by
    intro e he
    rw [List.mem_filter] at he
    exact beq_iff_eq.mp he.2
  have hsubkeys : ((s.edges.filter (fun e => e.1 == i)).map edgeKey).Nodup :=
    List.Nodup.sublist
      (List.Sublist.map edgeKey (List.filter_sublist _)) hInv.2.2.1
  have hlabnd : ((s.edges.filter (fun e => e.1 == i)).map
      (fun e => e.2.1)).Nodup := by
    rw [show ((s.edges.filter (fun e => e.1 == i)).map (fun e => e.2.1))
        = ((s.edges.filter (fun e => e.1 == i)).map edgeKey).map Prod.snd
      by rw [List.map_map]; rfl]
    apply List.Nodup.map_on ?_ hsubkeys
    intro x hx y hy hxy
    rw [List.mem_map] at hx hy
    obtain ⟨ex, hex, hexk⟩ := hx
    obtain ⟨ey, hey, heyk⟩ := hy
    have hx1 : x.1 = i := by
      rw [← hexk]
      exact hfil ex hex
    have hy1 : y.1 = i := by
      rw [← heyk]
      exact hfil ey hey
    exact Prod.ext (hx1.trans hy1.symm) hxy
  have hbound : ∀ g ∈ (s.edges.filter (fun e => e.1 == i)).map
      (fun e => e.2.1), g < s.gens.length := by
    intro g hgm
    rw [List.mem_map] at hgm
    obtain ⟨e, he, hk⟩ := hgm
    rw [List.mem_filter] at he
    rw [← hk]
    exact (hInv.2.1 e he.1).2.1
  have hcov : ∀ g, g < s.gens.length →
      g ∈ (s.edges.filter (fun e => e.1 == i)).map (fun e => e.2.1) := by
    intro g hg
    obtain ⟨j, _, hj⟩ := hedge i hi g hg
    have hmem := edgeTarget_mem s hj
    rw [List.mem_map]
    refine ⟨(i, g, j), ?_, rfl⟩
    rw [List.mem_filter]
    exact ⟨hmem, beq_self_eq_true i⟩
  have htf : ((s.edges.filter (fun e => e.1 == i)).map
      (fun e => e.2.1)).toFinset = Finset.range s.gens.length := by
    ext a
    rw [List.mem_toFinset, Finset.mem_range]
    exact ⟨hbound a, hcov a⟩
  have hlen : ((s.edges.filter (fun e => e.1 == i)).map
      (fun e => e.2.1)).length = s.gens.length := by
    rw [← List.toFinset_card_of_nodup hlabnd, htf, Finset.card_range]
  unfold outDegree number_of_generators
  rw [← hlen, List.length_map]

/-- Claim C10: `init()` restores the state of a newly
default-constructed action: afterwards `empty()` holds, `current_size()`
and `number_of_generators()` are `0`, and all previously added seeds,
generators, discovered points and cached SCC/multiplier data are
discarded. -/
theorem claim_C10_init (s : ActionState Elt Pt) :
    init s = (initState : ActionState Elt Pt) ∧
    empty (init s) = true ∧
    current_size (init s) = 0 ∧
    number_of_generators (init s) = 0 ∧
    (init s).points = [] ∧ (init s).gens = [] ∧ (init s).edges = [] ∧
    (init s).multCache = [] ∧ (init s).sccCache = none :=
  ⟨rfl, rfl, rfl, rfl, rfl, rfl, rfl, rfl, rfl⟩

/-- Witness for claim C1, on the two-point swap action: position 1 is in
range, the generator list is nonempty, and both multipliers realize the
transitions to and from the root of the (single) strongly connected
component. -/
theorem claim_C1_witness :
    (∃ x t, multiplier_to_scc_root tmul tone tS 1 = .ok (x, t) ∧
      tact x (pointAt tS 1) = pointAt tS (rootIdx tS 1)) ∧
    (∃ x t, multiplier_from_scc_root tmul tone tS 1 = .ok (x, t) ∧
      tact x (pointAt tS (rootIdx tS 1)) = pointAt tS 1) :=
  claim_C1_multiplier_correct tact tmul tone tS (by decide)
    (fun _ _ _ => rfl) (fun _ => rfl) 1 (by decide)
    (by rw [show tS.gens = [tg1] from rfl]; exact List.cons_ne_nil tg1 [])

/-- Witness for claim C2: splitting the enumeration of the swap action
into one call of two steps versus two calls of one step each yields the
same points and edges. -/
theorem claim_C2_witness :
    (runFuels tact [2] (buildState [(0 : TPt)] [tg1])).points
      = (runFuels tact [1, 1] (buildState [(0 : TPt)] [tg1])).points ∧
    (runFuels tact [2] (buildState [(0 : TPt)] [tg1])).edges
      = (runFuels tact [1, 1] (buildState [(0 : TPt)] [tg1])).edges :=
  claim_C2_determinism tact [(0 : TPt)] [tg1] [2] [1, 1]
    (by decide) (by decide)

/-- Witness for claim C3, on the fully enumerated swap action: the edge
out of node 0 under generator 0 exists and is discovered, and node 0 has
out-degree equal to the number of generators. -/
theorem claim_C3_witness :
    (∃ j, j < current_size tS ∧ edgeTarget tS 0 0 = some j) ∧
    outDegree tS 0 = number_of_generators tS :=
  ⟨(claim_C3_closure tact tS (by decide) (by decide)).1 0 (by decide) 0
      (by decide),
   (claim_C3_closure tact tS (by decide) (by decide)).2 0 (by decide)⟩

/-- Witness for claim C4, on the swap action: nodes 0 and 1 share their
root exactly because they are mutually reachable, and the root of node 0
is the minimal member of its component. -/
theorem claim_C4_witness :
    (rootIdx tS 0 = rootIdx tS 1 ↔ (Reaches tS 0 1 ∧ Reaches tS 1 0)) ∧
    (Reaches tS 0 (rootIdx tS 0) ∧ Reaches tS (rootIdx tS 0) 0) ∧
    (∀ j, Reaches tS 0 j → Reaches tS j 0 → rootIdx tS 0 ≤ j) :=
  claim_C4_root_well_defined tact tS (by decide) 0 1 (by decide)
    (by decide)

/-- Witness for claim C5, on the swap action: the `scc()` query and a
successful `root_of_scc` query both leave points, generators and edges
untouched. -/
theorem claim_C5_witness :
    (sameGraph tS (ActionSpec.scc tS).2
      ∧ current_size (ActionSpec.scc tS).2 = current_size tS) ∧
    (sameGraph tS { tS with sccCache := some (sccIds tS) }
      ∧ current_size { tS with sccCache := some (sccIds tS) }
        = current_size tS) :=
  ⟨(claim_C5_frame tS).1,
   (claim_C5_frame tS).2.1 1 (pointAt tS (rootIdx tS 1))
     { tS with sccCache := some (sccIds tS) } rfl⟩

/-- Witness for the amended claim C6, on the swap action at index 1:
the multiplier queries succeed exactly because the generator list is
nonempty and the index is in range. -/
theorem claim_C6_witness :
    ((multiplier_to_scc_root tmul tone tS 1).isOk = true ↔
      (tS.gens ≠ [] ∧ 1 < current_size tS)) ∧
    ((multiplier_from_scc_root tmul tone tS 1).isOk = true ↔
      (tS.gens ≠ [] ∧ 1 < current_size tS)) :=
  claim_C6_multiplier_errors tact tmul tone tS (by decide) 1

/-- Counterexample to claim C6 as stated: on an action holding one seed
and no generators, the index 0 is in range (the current size is 1), yet
both multiplier queries fail, so being out of range is not the only
failure condition. -/
theorem claim_C6_counterexample :
    0 < current_size tSeedOnly ∧
    (multiplier_to_scc_root tmul tone tSeedOnly 0).isOk = false ∧
    (multiplier_from_scc_root tmul tone tSeedOnly 0).isOk = false :=
  ⟨by decide, by decide, by decide⟩

/-- Witness for claim C7, on the swap action: index 1 is in range, the
query succeeds and returns the stored point. -/
theorem claim_C7_witness :
    ((atP tS 1).isOk = true ↔ 1 < current_size tS) ∧
    atP tS 1 = .ok (tS.points.get ⟨1, by decide⟩) :=
  ⟨(claim_C7_at tS 1).1, (claim_C7_at tS 1).2 (by decide)⟩

/-- Witness for claim C8: re-adding the seed 0 to the swap action, which
already holds it, changes nothing. -/
theorem claim_C8_witness :
    add_seed tS (0 : TPt) = tS ∧
    current_size (add_seed tS (0 : TPt)) = current_size tS ∧
    (∀ q, position (add_seed tS (0 : TPt)) q = position tS q) :=
  claim_C8_add_seed_idempotent tS 0 (by decide)

end ActionSpec
